import Mathlib

/-!
# OpenVoronoi `voronoidiagram.hpp` — verification of the specified behaviour

This file embeds, in Lean, the data and operations of the OpenVoronoi
incremental Voronoi-diagram engine (`src/voronoidiagram.hpp`) that the
specification talks about, and proves or refutes the specified properties.

The repository provides only the class header; the bodies of most member
functions (`augment_vertex_set`, `insert_point_site`, `reset_status`, ...)
are declared there but not included.  Wherever a property depends on such a
body, the corresponding definition below is written from the specification
text and is marked `Modelled from the spec:` in its doc comment.  Code that
is present in the header (the queue comparator, the inline accessors, the
default constructor, `SplitPointError::operator()`) is embedded directly.

Conventions:
* C++ `double` predicate values are modelled as `Int`; only their ordering
  and absolute value are consumed by the queue, so the ordered-field part
  of `double` is what matters, not its width.
* Geometric coordinates for `SplitPointError` are modelled as real numbers.
* Machine `int` counters are modelled as `Int`.
-/

namespace OpenVoronoi

/-! ## Part 1 — the vertex priority queue

`voronoidiagram.hpp` lines 37–47:

    typedef std::pair<HEVertex, double> VertexDetPair;
    class abs_comparison {
      bool operator() (const VertexDetPair& lhs, const VertexDetPair& rhs) const {
        return ( fabs(lhs.second) < fabs(rhs.second) );
      }
    };
    typedef std::priority_queue< VertexDetPair, std::vector<VertexDetPair>,
                                 abs_comparison > VertexQueue;

`std::priority_queue` is an array-embedded binary max-heap
(`std::push_heap` sifts the appended element up; `std::pop_heap` swaps the
root with the last element and re-heapifies).  The C++ standard pins down
only the heap invariant; where entries compare equivalent (equal `fabs`
keys) the resulting array layout is implementation-dependent, and
libstdc++ and libc++ place equal keys differently from the classical
textbook sift.  The definitions below are therefore one conforming
determinization, and the theorems proved about them rest only on the
standard-guaranteed heap invariant (`IsHeap`), never on the layout among
equal keys.  The heap array of size `n` is modelled as a function
`Fin n → VertexDetPair`. -/

/-- `VertexDetPair`: a graph vertex (modelled by its integer handle)
paired with the signed in-circle determinant computed for it. -/
structure VertexDetPair where
  vtx : Nat
  det : Int
deriving DecidableEq, Repr

/-- `fabs(det)` of a `VertexDetPair`, as a natural number. -/
def absKey (x : VertexDetPair) : Nat := x.det.natAbs

/-- The comparator `abs_comparison` of `voronoidiagram.hpp`:
`fabs(lhs.second) < fabs(rhs.second)`. -/
def abs_comparison (lhs rhs : VertexDetPair) : Bool :=
  absKey lhs < absKey rhs

/-- Swap the entries at two positions of a (function-modelled) array. -/
def fswap {n : Nat} {α : Type} (f : Fin n → α) (i j : Fin n) : Fin n → α :=
  fun k => if k = i then f j else if k = j then f i else f k

/-- Append an element at the end of a (function-modelled) array. -/
def fpush {n : Nat} {α : Type} (f : Fin n → α) (x : α) : Fin (n + 1) → α :=
  fun k => if h : k.1 < n then f ⟨k.1, h⟩ else x

/-- Drop the last entry of a (function-modelled) array. -/
def fpop {n : Nat} {α : Type} (f : Fin (n + 1) → α) : Fin n → α :=
  fun k => f ⟨k.1, Nat.lt_succ_of_lt k.2⟩

/-- `std::push_heap`: sift the element at position `i` up towards the root
while it compares greater than its parent `(i-1)/2`.  The recursion is
paid for by an explicit `fuel` argument (the parent chain from position
`i` has at most `i` links, so callers pass `fuel = i`); this keeps the
definition structurally recursive and kernel-computable. -/
def siftUp {n : Nat} (fuel : Nat) (f : Fin n → VertexDetPair) (i : Nat) :
    Fin n → VertexDetPair :=
  match fuel with
  | 0 => f
  | fuel + 1 =>
    if hi : i < n then
      if i = 0 then f
      else
        if abs_comparison (f ⟨(i - 1) / 2, by omega⟩) (f ⟨i, hi⟩) then
          siftUp fuel (fswap f ⟨(i - 1) / 2, by omega⟩ ⟨i, hi⟩) ((i - 1) / 2)
        else f
    else f

/-- The sift-down of `std::pop_heap`: push the element at position `i` down,
swapping with the larger of its children (the left one on a comparator tie)
while a child compares greater.  Structurally recursive on a `fuel`
argument; callers pass `fuel = n` which dominates the descent length. -/
def siftDown {n : Nat} (fuel : Nat) (f : Fin n → VertexDetPair) (i : Nat) :
    Fin n → VertexDetPair :=
  match fuel with
  | 0 => f
  | fuel + 1 =>
    if hi : i < n then
      if hr : 2 * i + 2 < n then
        if abs_comparison (f ⟨2 * i + 1, by omega⟩) (f ⟨2 * i + 2, hr⟩) then
          if abs_comparison (f ⟨i, hi⟩) (f ⟨2 * i + 2, hr⟩) then
            siftDown fuel (fswap f ⟨i, hi⟩ ⟨2 * i + 2, hr⟩) (2 * i + 2)
          else f
        else
          if abs_comparison (f ⟨i, hi⟩) (f ⟨2 * i + 1, by omega⟩) then
            siftDown fuel (fswap f ⟨i, hi⟩ ⟨2 * i + 1, by omega⟩) (2 * i + 1)
          else f
      else if hl : 2 * i + 1 < n then
        if abs_comparison (f ⟨i, hi⟩) (f ⟨2 * i + 1, hl⟩) then
          siftDown fuel (fswap f ⟨i, hi⟩ ⟨2 * i + 1, hl⟩) (2 * i + 1)
        else f
      else f
    else f

/-- `VertexQueue`: the state of the priority queue, i.e. the backing
`std::vector` of `VertexDetPair`, modelled as its size together with the
entry at each position. -/
structure VertexQueue where
  size : Nat
  elems : Fin size → VertexDetPair

/-- The empty queue. -/
def VertexQueue.empty : VertexQueue :=
  ⟨0, fun k => absurd k.2 (Nat.not_lt_zero _)⟩

/-- `q.push(x)`: append `x` and sift it up (`std::push_heap`). -/
def VertexQueue.push (q : VertexQueue) (x : VertexDetPair) : VertexQueue :=
  ⟨q.size + 1, siftUp q.size (fpush q.elems x) q.size⟩

/-- `q.top(); q.pop()`: return the root and the queue obtained by swapping
the root with the last element, shrinking by one, and sifting the new root
down (`std::pop_heap` followed by `pop_back`).  The swap-only-on-a-strict
comparator win in `siftDown` is one conforming determinization: real
implementations (libstdc++ `__adjust_heap`, libc++ `__sift_down`) place
equal keys differently, and only the heap invariant of the result is
common to all of them.  On an empty queue (calling `pop` on which is
undefined behaviour in C++) the queue is left unchanged and no element is
returned. -/
def VertexQueue.pop : VertexQueue → Option VertexDetPair × VertexQueue
  | ⟨0, f⟩ => (none, ⟨0, f⟩)
  | ⟨m + 1, f⟩ =>
    (some (f ⟨0, Nat.succ_pos m⟩),
     ⟨m, siftDown m (fpop (fswap f ⟨0, Nat.succ_pos m⟩ ⟨m, Nat.lt_succ_self m⟩)) 0⟩)

/-- The binary max-heap invariant with respect to `abs_comparison`: no
entry compares greater than its parent `(j-1)/2`. -/
def IsHeap {n : Nat} (f : Fin n → VertexDetPair) : Prop :=
  ∀ (j : Nat) (hj : j < n), 0 < j → ∀ (hp : (j - 1) / 2 < n),
    abs_comparison (f ⟨(j - 1) / 2, hp⟩) (f ⟨j, hj⟩) = false

/-- The queue states reachable by `push` and `pop` from the empty queue:
exactly the states the `VertexQueue` of the diagram can be in. -/
inductive VertexQueue.Reachable : VertexQueue → Prop
  | empty : VertexQueue.Reachable VertexQueue.empty
  | push (q : VertexQueue) (x : VertexDetPair) :
      VertexQueue.Reachable q → VertexQueue.Reachable (q.push x)
  | pop (q : VertexQueue) :
      VertexQueue.Reachable q → VertexQueue.Reachable q.pop.2

/-- Invariant for `siftUp` at position `i`: the heap order may be broken
only on the edge from `i` to its parent, and in compensation the children
of `i` are already dominated by the parent of `i` (so that swapping along
the edge cannot break the order below `i`). -/
def UpInv {n : Nat} (f : Fin n → VertexDetPair) (i : Nat) : Prop :=
  (∀ (j : Nat) (hj : j < n), 0 < j → j ≠ i → ∀ (hq : (j - 1) / 2 < n),
     absKey (f ⟨j, hj⟩) ≤ absKey (f ⟨(j - 1) / 2, hq⟩))
  ∧ (∀ (j : Nat) (hj : j < n), (j - 1) / 2 = i → 0 < j → 0 < i →
     ∀ (hq : (i - 1) / 2 < n),
     absKey (f ⟨j, hj⟩) ≤ absKey (f ⟨(i - 1) / 2, hq⟩))

/-- Invariant for `siftDown` at position `i`: the heap order may be broken
only on the edges from `i` to its children, and the children of `i` are
dominated by the parent of `i`. -/
def DownInv {n : Nat} (f : Fin n → VertexDetPair) (i : Nat) : Prop :=
  (∀ (j : Nat) (hj : j < n), 0 < j → (j - 1) / 2 ≠ i → ∀ (hq : (j - 1) / 2 < n),
     absKey (f ⟨j, hj⟩) ≤ absKey (f ⟨(j - 1) / 2, hq⟩))
  ∧ (∀ (j : Nat) (hj : j < n), (j - 1) / 2 = i → 0 < j → 0 < i →
     ∀ (hq : (i - 1) / 2 < n),
     absKey (f ⟨j, hj⟩) ≤ absKey (f ⟨(i - 1) / 2, hq⟩))

/-! ## Part 2 — `SplitPointError` (`voronoidiagram.hpp` lines 161–190)

    double operator()(const double t) {
        Point p = vd->g[edge].point(t);
        double u = (p-p1).dot(p2-p1) / ( (p2-p1).dot(p2-p1) );
        Point proj = p1 + u*(p2-p1);
        double dist = (proj-p).norm();
        double sign;
        if ( p.is_right(p1,p2) ) sign = +1; else sign = -1;
        return sign*dist;
    }

Coordinates are modelled as real numbers.  The `Point` primitives
(`point.hpp` is not part of the repository sources) are the standard
planar-vector operations the spec lists in §1/§6: dot, norm and the
right-of-line test. -/

/-- A planar point with real coordinates. -/
structure Point where
  x : ℝ
  y : ℝ

/-- `Point::dot`. -/
def Point.dot (a b : Point) : ℝ := a.x * b.x + a.y * b.y

/-- `Point::norm`: the Euclidean length. -/
noncomputable def Point.norm (a : Point) : ℝ := Real.sqrt (a.dot a)

/-- Componentwise difference (`operator-` of `Point`). -/
def Point.sub (a b : Point) : Point := ⟨a.x - b.x, a.y - b.y⟩

/-- Componentwise sum (`operator+` of `Point`). -/
def Point.add (a b : Point) : Point := ⟨a.x + b.x, a.y + b.y⟩

/-- Scalar multiple (`u*(p2-p1)` in the source). -/
def Point.smul (u : ℝ) (a : Point) : Point := ⟨u * a.x, u * a.y⟩

/-- The planar cross product. -/
def Point.cross (a b : Point) : ℝ := a.x * b.y - a.y * b.x

/-- Modelled from the spec: `Point::is_right(p1, p2)` — the "right-of-line
test" of §1/§6 (`point.hpp` is not in the repository): whether the point
lies strictly on the right of the directed line p1→p2, i.e. the cross
product of the direction with the offset is negative. -/
def Point.is_right (p a b : Point) : Prop := (b.sub a).cross (p.sub a) < 0

/-- The state of a `SplitPointError` functor: the parametric point
function `vd->g[edge].point` of the stored split edge, and the two stored
points `p1`, `p2` spanning the line. -/
structure SplitPointError where
  edgePoint : ℝ → Point
  p1 : Point
  p2 : Point

open Classical in
/-- `SplitPointError::operator()(t)`, embedded verbatim from
`voronoidiagram.hpp` lines 169–184. -/
noncomputable def SplitPointError.eval (s : SplitPointError) (t : ℝ) : ℝ :=
  let p := s.edgePoint t
  let u := (p.sub s.p1).dot (s.p2.sub s.p1) / (s.p2.sub s.p1).dot (s.p2.sub s.p1)
  let proj := s.p1.add (Point.smul u (s.p2.sub s.p1))
  let dist := (proj.sub p).norm
  let sign : ℝ := if p.is_right s.p1 s.p2 then 1 else -1
  sign * dist

open Classical in
/-- The guarded version of `SplitPointError::operator()(t)` for the
division-safety analysis: the division `u = … / (p2-p1).dot(p2-p1)` is
performed only when the divisor is nonzero, and the error branch `none`
records that the unguarded source divides by zero. -/
noncomputable def SplitPointError.evalChecked (s : SplitPointError) (t : ℝ) : Option ℝ :=
  if (s.p2.sub s.p1).dot (s.p2.sub s.p1) = 0 then none
  else some (s.eval t)

/-! ## Part 3 — the inline accessors and object construction

`voronoidiagram.hpp` lines 85–91:

    double get_far_radius() const {return far_radius;}
    int num_point_sites() const {return num_psites-3;}
    int num_line_sites() const {return num_lsites;}
    int num_vertices() const { return g.num_vertices()-num_point_sites(); }

and lines 72, 140–146: the default constructor `VoronoiDiagram() {}` with
data members `HEGraph g; double far_radius; int num_psites; int num_lsites;`. -/

/-- The data members of an initialized `VoronoiDiagram` that the inline
accessors read; the half-edge graph `g` is represented by the vertex count
`g.num_vertices()` returns. -/
structure VoronoiDiagramFields where
  g_num_vertices : Int
  far_radius : ℚ
  num_psites : Int
  num_lsites : Int

/-- `num_point_sites()`: `num_psites - 3` (the three initial vertices do
not count), header line 87. -/
def num_point_sites (s : VoronoiDiagramFields) : Int := s.num_psites - 3

/-- `num_line_sites()`: header line 89. -/
def num_line_sites (s : VoronoiDiagramFields) : Int := s.num_lsites

/-- `num_vertices()`: `g.num_vertices() - num_point_sites()`, header
line 91. -/
def num_vertices (s : VoronoiDiagramFields) : Int :=
  s.g_num_vertices - num_point_sites s

/-- `get_far_radius()`: header line 85. -/
def get_far_radius (s : VoronoiDiagramFields) : ℚ := s.far_radius

/-- The raw member state of a `VoronoiDiagram` object under C++ object
construction semantics: each scalar member either holds a value or is
indeterminate (`none`).  `HEGraph g` has its own default constructor, so
its vertex count is always defined. -/
structure VoronoiDiagramRaw where
  far_radius : Option ℚ
  num_psites : Option Int
  num_lsites : Option Int
  g_num_vertices : Int

/-- The default constructor `VoronoiDiagram() {}` (header line 72): the
body is empty and there are no member initializers, so the scalar members
`far_radius`, `num_psites`, `num_lsites` stay indeterminate; the member
`g` is default-constructed empty. -/
def VoronoiDiagram_default_ctor : VoronoiDiagramRaw :=
  ⟨none, none, none, 0⟩

/-- Modelled from the spec: the two-argument constructor
`VoronoiDiagram(double far, unsigned int n_bins)` (§6: "takes far radius R
… and a bin count"; its body is not in the repository sources).  It sets
`far_radius` and the site counters, and `initialize()` creates the three
initial outer generators counted by `num_psites = 3`. -/
def VoronoiDiagram_ctor (far : ℚ) (n_bins : Nat) : VoronoiDiagramRaw :=
  ⟨some far, some 3, some 0, 3⟩

/-- `get_far_radius()` under initialization tracking: reading an
indeterminate member propagates indeterminacy. -/
def get_far_radius_raw (s : VoronoiDiagramRaw) : Option ℚ := s.far_radius

/-- `num_point_sites()` under initialization tracking. -/
def num_point_sites_raw (s : VoronoiDiagramRaw) : Option Int :=
  s.num_psites.map (· - 3)

/-- `num_line_sites()` under initialization tracking. -/
def num_line_sites_raw (s : VoronoiDiagramRaw) : Option Int := s.num_lsites

/-- `num_vertices()` under initialization tracking: it reads
`g.num_vertices()` (always defined) and `num_point_sites()`. -/
def num_vertices_raw (s : VoronoiDiagramRaw) : Option Int :=
  (num_point_sites_raw s).map (fun k => s.g_num_vertices - k)

/-! ## Part 4 — the public insertion protocol (modelled from the spec)

The bodies of `insert_point_site` / `insert_line_site` are not in the
repository sources (only the declarations, header lines 81–83).  The
state machine below is modelled from the spec: §6 (preconditions and the
counter accessors), §7 (error kind 1, *InvalidSite*: "input point outside
the far circle, coincident, or segment self-intersecting.  Reported to
caller; diagram unchanged") and §8 (round-trip and boundary properties).
Coordinates are integers so every transition is decidable; `|p| < R`
becomes the squared comparison `p·p < R²` (equivalent for `R ≥ 0`). -/

/-- A planar point with integer coordinates, for the insertion model. -/
structure IPoint where
  x : Int
  y : Int
deriving DecidableEq, Repr

/-- Orientation of the triple `(a, b, c)`: positive when counterclockwise. -/
def orient (a b c : IPoint) : Int :=
  (b.x - a.x) * (c.y - a.y) - (b.y - a.y) * (c.x - a.x)

/-- Proper crossing of segments `p1p2` and `q1q2` (each segment separates
the other's endpoints strictly). -/
def properCross (p1 p2 q1 q2 : IPoint) : Bool :=
  decide (orient p1 p2 q1 * orient p1 p2 q2 < 0)
    && decide (orient q1 q2 p1 * orient q1 q2 p2 < 0)

/-- Modelled from the spec: the diagram state visible through the public
counters and handles — far radius and bin count from construction, the
`num_psites` / `num_lsites` counters, the inserted point sites in handle
order, and the inserted segments as handle pairs. -/
structure DiagramState where
  far_radius : Int
  n_bins : Nat
  num_psites : Int
  num_lsites : Int
  points : List IPoint
  segs : List (Nat × Nat)
deriving DecidableEq, Repr

/-- Modelled from the spec: construction with a far radius and a bin
count; `initialize()` adds the three initial far-circle generators, which
`num_psites` counts (`num_point_sites()` subtracts them back off). -/
def construct (far : Int) (n_bins : Nat) : DiagramState :=
  ⟨far, n_bins, 3, 0, [], []⟩

/-- `num_point_sites()` of the model state (header line 87). -/
def DiagramState.num_point_sites (s : DiagramState) : Int := s.num_psites - 3

/-- `num_line_sites()` of the model state (header line 89). -/
def DiagramState.num_line_sites (s : DiagramState) : Int := s.num_lsites

/-- Modelled from the spec: the `insert_point_site` precondition
(§6: "|p| < R, p not coincident with an existing point site"). -/
def point_site_ok (s : DiagramState) (p : IPoint) : Bool :=
  decide (p.x * p.x + p.y * p.y < s.far_radius * s.far_radius)
    && !(decide (p ∈ s.points))

/-- Modelled from the spec: `insert_point_site(p)` returns a monotonically
assigned integer handle and appends the site on success; on a precondition
violation it reports failure (`none`) and leaves the diagram unchanged
(§7: "Reported to caller; diagram unchanged"). -/
def insert_point_site (s : DiagramState) (p : IPoint) : Option Nat × DiagramState :=
  if point_site_ok s p then
    (some s.points.length,
     { s with num_psites := s.num_psites + 1, points := s.points ++ [p] })
  else (none, s)

/-- Modelled from the spec: the `insert_line_site` precondition (§6:
"idx₁, idx₂ are valid point handles; the segment does not cross any
existing segment", §8: "inserting a degenerate zero-length segment
fails"). -/
def line_site_ok (s : DiagramState) (i j : Nat) : Bool :=
  match s.points[i]?, s.points[j]? with
  | some a, some b =>
    decide (a ≠ b) && s.segs.all (fun kl =>
      match s.points[kl.1]?, s.points[kl.2]? with
      | some c, some d => !properCross a b c d
      | _, _ => true)
  | _, _ => false

/-- Modelled from the spec: `insert_line_site(idx1, idx2)` reports success
as a `Bool`; on failure the diagram is unchanged. -/
def insert_line_site (s : DiagramState) (i j : Nat) : Bool × DiagramState :=
  if line_site_ok s i j then
    (true, { s with num_lsites := s.num_lsites + 1, segs := s.segs ++ [(i, j)] })
  else (false, s)

/-- One public mutating operation. -/
inductive SiteOp where
  | point (p : IPoint)
  | line (i j : Nat)
deriving DecidableEq, Repr

/-- Apply one operation to the state (discarding the reported handle). -/
def applyOp (s : DiagramState) (op : SiteOp) : DiagramState :=
  match op with
  | .point p => (insert_point_site s p).2
  | .line i j => (insert_line_site s i j).2

/-- Run a sequence of operations. -/
def runOps (s : DiagramState) : List SiteOp → DiagramState
  | [] => s
  | op :: ops => runOps (applyOp s op) ops

/-- The number of successful `insert_point_site` calls in a run. -/
def countPointOk (s : DiagramState) : List SiteOp → Int
  | [] => 0
  | op :: ops =>
    (match op with
     | .point p => if (insert_point_site s p).1.isSome then 1 else 0
     | .line _ _ => 0) + countPointOk (applyOp s op) ops

/-- The number of successful `insert_line_site` calls in a run. -/
def countLineOk (s : DiagramState) : List SiteOp → Int
  | [] => 0
  | op :: ops =>
    (match op with
     | .point _ => 0
     | .line i j => if (insert_line_site s i j).1 then 1 else 0)
      + countLineOk (applyOp s op) ops

/-! ## Part 5 — the process-global vertex index counter (C7)

`voronoidiagram.hpp` line 99:

    static void reset_vertex_count() { VoronoiVertex::reset_count(); }

a `static` hook resetting `VoronoiVertex`'s index counter: vertex indices
are drawn from a process-global counter, not from the diagram instance
(the spec's §9 open question records the same reading).  The model pairs
the diagram state with that process counter. -/

/-- A diagram state together with the vertex indices its graph vertices
received from the process-global `VoronoiVertex` counter. -/
structure GDiagram where
  ds : DiagramState
  vertex_indices : List Nat
deriving DecidableEq, Repr

/-- Modelled from the spec: constructing a diagram runs `initialize()`,
which creates the three initial outer vertices; each draws the next index
from the process-global counter. -/
def gconstruct (far : Int) (n_bins : Nat) (counter : Nat) : GDiagram × Nat :=
  (⟨construct far n_bins, [counter, counter + 1, counter + 2]⟩, counter + 3)

/-- Modelled from the spec: a successful point insertion creates at least
the point-site graph vertex, drawing the next process-global index (real
insertions also create NEW Voronoi vertices, which draw further indices;
one per insertion suffices for the analysis). -/
def ginsert_point (g : GDiagram) (counter : Nat) (p : IPoint) : GDiagram × Nat :=
  match insert_point_site g.ds p with
  | (some _, ds2) => (⟨ds2, g.vertex_indices ++ [counter]⟩, counter + 1)
  | (none, ds2) => (⟨ds2, g.vertex_indices⟩, counter)

/-- Run: construct a diagram and insert a sequence of points, threading
the process-global vertex counter. -/
def grun (far : Int) (n_bins : Nat) (ps : List IPoint) (counter : Nat) :
    GDiagram × Nat :=
  go (gconstruct far n_bins counter).1 (gconstruct far n_bins counter).2 ps
where
  /-- Insert the points one at a time. -/
  go (g : GDiagram) (c : Nat) : List IPoint → GDiagram × Nat
    | [] => (g, c)
    | p :: ps => go (ginsert_point g c p).1 (ginsert_point g c p).2 ps

/-! ## Part 6 — the delete-region flood fill and the status reset
(modelled from the spec)

The bodies of `augment_vertex_set`, `predicate_c4`, `predicate_c5`,
`mark_vertex`, `mark_adjacent_faces` and `reset_status` are declared in
the header (lines 108–124) but not included in the repository sources.
The model below follows §4.3 and §4.2 of the spec.  Vertices are `Nat`
handles; a face is its boundary cycle, a list of vertex handles; the
status store is a map from handles to status.  Topology mutation during
an insertion (creation of NEW vertices, deletion of IN vertices) is not
modelled: the claims C1 and C4 are about the status/incidence
bookkeeping, which is independent of it. -/

/-- Vertex status, §3: `{UNDECIDED, IN, OUT, NEW}`. -/
inductive VoronoiVertexStatus where
  | UNDECIDED
  | IN
  | OUT
  | NEW
deriving DecidableEq, Repr

/-- The vertex status store. -/
def StatusMap : Type := Nat → VoronoiVertexStatus

/-- Update one vertex status. -/
def updStatus (st : StatusMap) (v : Nat) (x : VoronoiVertexStatus) : StatusMap :=
  fun u => if u = v then x else st u

/-- Whether a vertex currently has status IN. -/
def isIN (st : StatusMap) (v : Nat) : Bool := decide (st v = .IN)

/-- The adjacent (cyclically consecutive) pairs of a boundary cycle. -/
def cyclePairs (c : List Nat) : List (Nat × Nat) :=
  match c with
  | [] => []
  | x :: xs => c.zip (xs ++ [x])

/-- The number of IN → non-IN transitions met walking once around a
boundary cycle. -/
def inOutTransitions (st : StatusMap) (c : List Nat) : Nat :=
  (cyclePairs c).countP (fun ab => isIN st ab.1 && !isIN st ab.2)

/-- Modelled from the spec: `predicate_c4` (§4.3) — "v is accepted only
if, for each face f incident to v, the IN-vertices of f (including v)
induce a connected subgraph in f's boundary cycle".  On a cycle, a set is
connected exactly when walking once around leaves it at most once. -/
def predicate_c4 (faces : List (List Nat)) (st : StatusMap) (v : Nat) : Bool :=
  faces.all fun f =>
    !(decide (v ∈ f)) || decide (inOutTransitions (updStatus st v .IN) f ≤ 1)

/-- Modelled from the spec: `predicate_c5` (§4.3) — "v is accepted only if
for every incident face at least one OUT vertex remains after accepting
v". -/
def predicate_c5 (faces : List (List Nat)) (st : StatusMap) (v : Nat) : Bool :=
  faces.all fun f =>
    !(decide (v ∈ f)) || f.any (fun u => decide (u ≠ v) && decide (st u = .OUT))

/-- The scratch state an insertion works on: the status store, the
per-face incidence flag (`true` = INCIDENT, `false` = NONINCIDENT), the
`modified_vertices` and `incident_faces` caches, and the vertex queue
(vertex, in-circle determinant). -/
structure AugState where
  status : StatusMap
  face_incident : Nat → Bool
  modified_vertices : List Nat
  incident_faces : List Nat
  vqueue : List (Nat × Int)

/-- Modelled from the spec: `mark_vertex` — set the status of `v` and
record it in `modified_vertices` so `reset_status` can restore it. -/
def mark_vertex (v : Nat) (x : VoronoiVertexStatus) (s : AugState) : AugState :=
  { s with status := updStatus s.status v x,
           modified_vertices := v :: s.modified_vertices }

/-- The indices of the faces whose boundary contains `v`. -/
def incidentFaceIdxs (faces : List (List Nat)) (v : Nat) : List Nat :=
  (List.range faces.length).filter (fun i => decide (v ∈ faces.getD i []))

/-- Modelled from the spec: `mark_adjacent_faces` (§4.3) — "when v is
marked IN, every face incident to v is marked INCIDENT and appended to
`incident_faces` if not already there". -/
def mark_adjacent_faces (faces : List (List Nat)) (v : Nat) (s : AugState) :
    AugState :=
  { s with
    face_incident := fun i =>
      if i ∈ incidentFaceIdxs faces v then true else s.face_incident i,
    incident_faces := s.incident_faces
      ++ (incidentFaceIdxs faces v).filter (fun i => decide (i ∉ s.incident_faces)) }

/-- The vertices adjacent to `v` on some boundary cycle. -/
def neighborsOf (faces : List (List Nat)) (v : Nat) : List Nat :=
  faces.foldr (fun f acc =>
    (cyclePairs f).foldr (fun ab acc2 =>
      if ab.1 = v then ab.2 :: acc2
      else if ab.2 = v then ab.1 :: acc2 else acc2) acc) []

/-- Remove the entry with maximal `|det|` from the queue (§4.3: the queue
is "ordered by descending |predicate|"); earlier entries win ties. -/
def popMaxAbs : List (Nat × Int) → Option ((Nat × Int) × List (Nat × Int))
  | [] => none
  | x :: xs =>
    match popMaxAbs xs with
    | none => some (x, [])
    | some (y, rest) =>
      if x.2.natAbs < y.2.natAbs then some (y, x :: rest) else some (x, xs)

/-- Modelled from the spec: one iteration of the `augment_vertex_set`
loop (§4.3) — pop the most certain vertex `v`; if accepting it as IN
would violate C4 or C5, mark it OUT instead; otherwise mark it IN, mark
its faces INCIDENT, and queue its still-UNDECIDED neighbours with their
in-circle determinants `det`. -/
def augment_step (faces : List (List Nat)) (det : Nat → Int) (s : AugState) :
    AugState :=
  match popMaxAbs s.vqueue with
  | none => s
  | some (v, rest) =>
    let s1 := { s with vqueue := rest }
    if s1.status v.1 ≠ .UNDECIDED then s1
    else if predicate_c4 faces s1.status v.1 && predicate_c5 faces s1.status v.1 then
      let s2 := mark_adjacent_faces faces v.1 (mark_vertex v.1 .IN s1)
      { s2 with vqueue := s2.vqueue
          ++ ((neighborsOf faces v.1).filter
            (fun u => decide (s2.status u = .UNDECIDED))).map (fun u => (u, det u)) }
    else mark_vertex v.1 .OUT s1

/-- Modelled from the spec: `augment_vertex_set` — iterate `augment_step`
until the queue drains (`fuel` bounds the iteration count). -/
def augment_vertex_set (faces : List (List Nat)) (det : Nat → Int) :
    Nat → AugState → AugState
  | 0, s => s
  | fuel + 1, s =>
    if s.vqueue.isEmpty then s
    else augment_vertex_set faces det fuel (augment_step faces det s)

/-- Modelled from the spec: `reset_status` (§4.2 step 8) — "return every
touched vertex to UNDECIDED and every touched face to NONINCIDENT", and
release the scratch caches. -/
def reset_status (s : AugState) : AugState :=
  { status := s.modified_vertices.foldl
      (fun st v => updStatus st v .UNDECIDED) s.status,
    face_incident := s.incident_faces.foldl
      (fun fi i => fun j => if j = i then false else fi j) s.face_incident,
    modified_vertices := [],
    incident_faces := [],
    vqueue := [] }

/-- Modelled from the spec: the status lifecycle of one insertion
(§4.2 steps 2, 3 and 8): mark the seed vertex IN, push it, flood-fill,
then reset. -/
def insertion_status_cycle (faces : List (List Nat)) (det : Nat → Int)
    (seed : Nat) (fuel : Nat) (s : AugState) : AugState :=
  let s1 := mark_adjacent_faces faces seed (mark_vertex seed .IN s)
  let s2 := { s1 with vqueue := s1.vqueue ++ [(seed, det seed)] }
  reset_status (augment_vertex_set faces det fuel s2)

/-- The inputs of one insertion, as far as the status lifecycle goes. -/
structure InsertionParams where
  faces : List (List Nat)
  det : Nat → Int
  seed : Nat
  fuel : Nat

/-- Run a sequence of insertions. -/
def run_insertions (s : AugState) : List InsertionParams → AugState
  | [] => s
  | p :: ps => run_insertions (insertion_status_cycle p.faces p.det p.seed p.fuel s) ps

/-- The between-insertions state: every vertex UNDECIDED, every face
NONINCIDENT, all scratch caches empty. -/
def CleanState (s : AugState) : Prop :=
  (∀ v : Nat, s.status v = .UNDECIDED)
  ∧ (∀ i : Nat, s.face_incident i = false)
  ∧ s.modified_vertices = [] ∧ s.incident_faces = [] ∧ s.vqueue = []

/-- The bookkeeping invariant maintained during an insertion: every
vertex whose status was changed is recorded in `modified_vertices`, and
every INCIDENT face in `incident_faces`. -/
def TrackInv (s : AugState) : Prop :=
  (∀ v : Nat, s.status v ≠ .UNDECIDED → v ∈ s.modified_vertices)
  ∧ (∀ i : Nat, s.face_incident i = true → i ∈ s.incident_faces)

/-- The flood-fill invariant of C1: on every face the IN-set is a single
contiguous arc of the boundary cycle (at most one IN → non-IN transition)
and no nonempty boundary is wholly IN. -/
def FillInv (faces : List (List Nat)) (st : StatusMap) : Prop :=
  ∀ f ∈ faces, inOutTransitions st f ≤ 1 ∧ (f ≠ [] → ∃ u ∈ f, st u ≠ .IN)

instance (faces : List (List Nat)) (st : StatusMap) : Decidable (FillInv faces st) := by
  unfold FillInv
  exact inferInstance

/-! ### Heap lemmas -/

theorem cmp_false_iff {a b : VertexDetPair} :
    abs_comparison a b = false ↔ absKey b ≤ absKey a := by
  simp [abs_comparison, Nat.not_lt]

theorem cmp_true_iff {a b : VertexDetPair} :
    abs_comparison a b = true ↔ absKey a < absKey b := by
  simp [abs_comparison]

theorem fapp_congr {n : Nat} {α : Type} (f : Fin n → α) {a b : Nat}
    (h : a = b) (ha : a < n) (hb : b < n) : f ⟨a, ha⟩ = f ⟨b, hb⟩ := by
  subst h; rfl

theorem fswap_fst {n : Nat} {α : Type} (f : Fin n → α) (i j : Fin n) :
    fswap f i j i = f j := by
  simp [fswap]

theorem fswap_snd {n : Nat} {α : Type} (f : Fin n → α) (i j : Fin n) :
    fswap f i j j = f i := by
  by_cases h : j = i
  · subst h; simp [fswap]
  · simp [fswap, h]

theorem fswap_other {n : Nat} {α : Type} (f : Fin n → α) (i j k : Fin n)
    (hki : k ≠ i) (hkj : k ≠ j) : fswap f i j k = f k := by
  simp [fswap, hki, hkj]

theorem siftUp_isHeap {n : Nat} :
    ∀ (fuel : Nat) (f : Fin n → VertexDetPair) (i : Nat), i < n → i ≤ fuel →
      UpInv f i → IsHeap (siftUp fuel f i) := by
  intro fuel
  induction fuel with
  | zero =>
    intro f i hi hfuel hinv
    have h0 : i = 0 := by omega
    subst h0
    rw [siftUp]
    intro j hj hj0 hq
    exact cmp_false_iff.mpr (hinv.1 j hj hj0 (by omega) hq)
  | succ fuel ih =>
    intro f i hi hfuel hinv
    rw [siftUp, dif_pos hi]
    split
    next h0 =>
      subst h0
      intro j hj hj0 hq
      exact cmp_false_iff.mpr (hinv.1 j hj hj0 (by omega) hq)
    next h0 =>
      have hp : (i - 1) / 2 < n := by omega
      split
      next hcmp =>
        have hlt : absKey (f ⟨(i - 1) / 2, hp⟩) < absKey (f ⟨i, hi⟩) :=
          cmp_true_iff.mp hcmp
        apply ih _ ((i - 1) / 2) hp (by omega)
        constructor
        · -- heap order away from position (i-1)/2, after the swap
          intro j hj hj0 hjp hq
          by_cases hji : j = i
          · have e1 : (⟨j, hj⟩ : Fin n) = ⟨i, hi⟩ := Fin.ext hji
            have e2 : (⟨(j - 1) / 2, hq⟩ : Fin n) = ⟨(i - 1) / 2, hp⟩ :=
              Fin.ext (show (j - 1) / 2 = (i - 1) / 2 by omega)
            rw [e1, e2, fswap_snd, fswap_fst]
            exact Nat.le_of_lt hlt
          · have eJ : fswap f ⟨(i - 1) / 2, hp⟩ ⟨i, hi⟩ ⟨j, hj⟩ = f ⟨j, hj⟩ :=
              fswap_other _ _ _ _ (fun h => hjp (congrArg Fin.val h))
                (fun h => hji (congrArg Fin.val h))
            rw [eJ]
            by_cases hpar_i : (j - 1) / 2 = i
            · have eP : fswap f ⟨(i - 1) / 2, hp⟩ ⟨i, hi⟩ ⟨(j - 1) / 2, hq⟩
                  = f ⟨(i - 1) / 2, hp⟩ := by
                rw [show (⟨(j - 1) / 2, hq⟩ : Fin n) = ⟨i, hi⟩ from Fin.ext hpar_i,
                  fswap_snd]
              rw [eP]
              exact hinv.2 j hj hpar_i hj0 (by omega) hp
            · by_cases hpar_p : (j - 1) / 2 = (i - 1) / 2
              · have eP : fswap f ⟨(i - 1) / 2, hp⟩ ⟨i, hi⟩ ⟨(j - 1) / 2, hq⟩
                    = f ⟨i, hi⟩ := by
                  rw [show (⟨(j - 1) / 2, hq⟩ : Fin n) = ⟨(i - 1) / 2, hp⟩ from
                    Fin.ext hpar_p, fswap_fst]
                rw [eP]
                have h1 := hinv.1 j hj hj0 hji hq
                have h2 : absKey (f ⟨(j - 1) / 2, hq⟩)
                    = absKey (f ⟨(i - 1) / 2, hp⟩) :=
                  congrArg absKey (fapp_congr f hpar_p hq hp)
                exact Nat.le_of_lt (Nat.lt_of_le_of_lt (h2 ▸ h1) hlt)
              · have eP : fswap f ⟨(i - 1) / 2, hp⟩ ⟨i, hi⟩ ⟨(j - 1) / 2, hq⟩
                    = f ⟨(j - 1) / 2, hq⟩ :=
                  fswap_other _ _ _ _ (fun h => hpar_p (congrArg Fin.val h))
                    (fun h => hpar_i (congrArg Fin.val h))
                rw [eP]
                exact hinv.1 j hj hj0 hji hq
        · -- children of (i-1)/2 stay below its parent, after the swap
          intro j hj hparj hj0 hp0 hq
          have hgpi : ((i - 1) / 2 - 1) / 2 ≠ i := by omega
          have hgpp : ((i - 1) / 2 - 1) / 2 ≠ (i - 1) / 2 := by omega
          have eGP : fswap f ⟨(i - 1) / 2, hp⟩ ⟨i, hi⟩ ⟨((i - 1) / 2 - 1) / 2, hq⟩
              = f ⟨((i - 1) / 2 - 1) / 2, hq⟩ :=
            fswap_other _ _ _ _ (fun h => hgpp (congrArg Fin.val h))
              (fun h => hgpi (congrArg Fin.val h))
          rw [eGP]
          have hpstep : absKey (f ⟨(i - 1) / 2, hp⟩)
              ≤ absKey (f ⟨((i - 1) / 2 - 1) / 2, hq⟩) :=
            hinv.1 ((i - 1) / 2) hp hp0 (by omega) hq
          by_cases hji : j = i
          · rw [show (⟨j, hj⟩ : Fin n) = ⟨i, hi⟩ from Fin.ext hji, fswap_snd]
            exact hpstep
          · have hjp : j ≠ (i - 1) / 2 := by omega
            have eJ : fswap f ⟨(i - 1) / 2, hp⟩ ⟨i, hi⟩ ⟨j, hj⟩ = f ⟨j, hj⟩ :=
              fswap_other _ _ _ _ (fun h => hjp (congrArg Fin.val h))
                (fun h => hji (congrArg Fin.val h))
            rw [eJ]
            have h1 := hinv.1 j hj hj0 hji (hparj.symm ▸ hp)
            have h2 : absKey (f ⟨(j - 1) / 2, hparj.symm ▸ hp⟩)
                = absKey (f ⟨(i - 1) / 2, hp⟩) :=
              congrArg absKey (fapp_congr f hparj _ hp)
            exact Nat.le_trans (h2 ▸ h1) hpstep
      next hcmp =>
        have hle : absKey (f ⟨i, hi⟩) ≤ absKey (f ⟨(i - 1) / 2, hp⟩) :=
          cmp_false_iff.mp (Bool.not_eq_true _ ▸ Bool.eq_false_iff.mpr hcmp)
        intro j hj hj0 hq
        by_cases hji : j = i
        · refine cmp_false_iff.mpr ?_
          have e1 : f ⟨j, hj⟩ = f ⟨i, hi⟩ := fapp_congr f hji hj hi
          have e2 : f ⟨(j - 1) / 2, hq⟩ = f ⟨(i - 1) / 2, hp⟩ :=
            fapp_congr f (by omega) hq hp
          rw [e1, e2]
          exact hle
        · exact cmp_false_iff.mpr (hinv.1 j hj hj0 hji hq)

theorem isHeap_of_downInv_stop {n : Nat} (f : Fin n → VertexDetPair) (i : Nat)
    (hi : i < n) (hinv : DownInv f i)
    (hchild : ∀ (j : Nat) (hj : j < n), (j - 1) / 2 = i → 0 < j →
      absKey (f ⟨j, hj⟩) ≤ absKey (f ⟨i, hi⟩)) :
    IsHeap f := by
  intro j hj hj0 hq
  by_cases hpj : (j - 1) / 2 = i
  · refine cmp_false_iff.mpr ?_
    rw [congrArg absKey (fapp_congr f hpj hq hi)]
    exact hchild j hj hpj hj0
  · exact cmp_false_iff.mpr (hinv.1 j hj hj0 hpj hq)

theorem downInv_swap {n : Nat} (f : Fin n → VertexDetPair) (i c : Nat)
    (hi : i < n) (hc : c < n) (hci : (c - 1) / 2 = i) (hc0 : 0 < c)
    (hinv : DownInv f i)
    (hcmax : ∀ (j : Nat) (hj : j < n), (j - 1) / 2 = i → 0 < j →
      absKey (f ⟨j, hj⟩) ≤ absKey (f ⟨c, hc⟩))
    (hic : absKey (f ⟨i, hi⟩) < absKey (f ⟨c, hc⟩)) :
    DownInv (fswap f ⟨i, hi⟩ ⟨c, hc⟩) c := by
  have hic_lt : i < c := by omega
  constructor
  · intro j hj hj0 hjc hq
    by_cases hjceq : j = c
    · -- the child that received the old root: its parent is `i`, holding the old child
      have e1 : (⟨j, hj⟩ : Fin n) = ⟨c, hc⟩ := Fin.ext hjceq
      have e2 : (⟨(j - 1) / 2, hq⟩ : Fin n) = ⟨i, hi⟩ :=
        Fin.ext (show (j - 1) / 2 = i by omega)
      rw [e1, e2, fswap_snd, fswap_fst]
      exact Nat.le_of_lt hic
    · by_cases hji : j = i
      · -- position i now holds the old child entry; its parent is untouched
        have hi0 : 0 < i := by omega
        have e1 : (⟨j, hj⟩ : Fin n) = ⟨i, hi⟩ := Fin.ext hji
        have hpar_ne_i : (j - 1) / 2 ≠ i := by omega
        have hpar_ne_c : (j - 1) / 2 ≠ c := hjc
        have eP : fswap f ⟨i, hi⟩ ⟨c, hc⟩ ⟨(j - 1) / 2, hq⟩ = f ⟨(j - 1) / 2, hq⟩ :=
          fswap_other _ _ _ _ (fun h => hpar_ne_i (congrArg Fin.val h))
            (fun h => hpar_ne_c (congrArg Fin.val h))
        rw [e1, eP, fswap_fst]
        have := hinv.2 c hc hci hc0 hi0 (show (i - 1) / 2 < n by omega)
        rw [congrArg absKey (fapp_congr f (show (i - 1) / 2 = (j - 1) / 2 by omega)
          (by omega) hq)] at this
        exact this
      · have eJ : fswap f ⟨i, hi⟩ ⟨c, hc⟩ ⟨j, hj⟩ = f ⟨j, hj⟩ :=
          fswap_other _ _ _ _ (fun h => hji (congrArg Fin.val h))
            (fun h => hjceq (congrArg Fin.val h))
        rw [eJ]
        by_cases hpar_i : (j - 1) / 2 = i
        · -- sibling of c: bounded by the maximal child c which now sits at i
          have eP : fswap f ⟨i, hi⟩ ⟨c, hc⟩ ⟨(j - 1) / 2, hq⟩ = f ⟨c, hc⟩ := by
            rw [show (⟨(j - 1) / 2, hq⟩ : Fin n) = ⟨i, hi⟩ from Fin.ext hpar_i,
              fswap_fst]
          rw [eP]
          exact hcmax j hj hpar_i hj0
        · have eP : fswap f ⟨i, hi⟩ ⟨c, hc⟩ ⟨(j - 1) / 2, hq⟩ = f ⟨(j - 1) / 2, hq⟩ :=
            fswap_other _ _ _ _ (fun h => hpar_i (congrArg Fin.val h))
              (fun h => hjc (congrArg Fin.val h))
          rw [eP]
          exact hinv.1 j hj hj0 hpar_i hq
  · intro j hj hparj hj0 hc0 hq
    -- grandchildren through c: still below the entry now at i, which is the old c
    have hjne_i : j ≠ i := by omega
    have hjne_c : j ≠ c := by omega
    have eJ : fswap f ⟨i, hi⟩ ⟨c, hc⟩ ⟨j, hj⟩ = f ⟨j, hj⟩ :=
      fswap_other _ _ _ _ (fun h => hjne_i (congrArg Fin.val h))
        (fun h => hjne_c (congrArg Fin.val h))
    have eP : fswap f ⟨i, hi⟩ ⟨c, hc⟩ ⟨(c - 1) / 2, hq⟩ = f ⟨c, hc⟩ := by
      rw [show (⟨(c - 1) / 2, hq⟩ : Fin n) = ⟨i, hi⟩ from Fin.ext hci, fswap_fst]
    rw [eJ, eP]
    have h1 := hinv.1 j hj hj0 (show (j - 1) / 2 ≠ i by omega) (hparj.symm ▸ hc)
    rw [congrArg absKey (fapp_congr f hparj _ hc)] at h1
    exact h1

theorem siftDown_isHeap {n : Nat} :
    ∀ (fuel : Nat) (f : Fin n → VertexDetPair) (i : Nat), n - i ≤ fuel →
      DownInv f i → IsHeap (siftDown fuel f i) := by
  intro fuel
  induction fuel with
  | zero =>
    intro f i hfuel hinv
    rw [siftDown]
    intro j hj hj0 hq
    exact cmp_false_iff.mpr (hinv.1 j hj hj0 (by omega) hq)
  | succ fuel ih =>
    intro f i hfuel hinv
    rw [siftDown]
    by_cases hi : i < n
    · rw [dif_pos hi]
      by_cases hr : 2 * i + 2 < n
      · rw [dif_pos hr]
        have hl : 2 * i + 1 < n := by omega
        split
        next hlr =>
          -- the right child 2i+2 is the larger one
          have hlr_lt : absKey (f ⟨2 * i + 1, by omega⟩) < absKey (f ⟨2 * i + 2, hr⟩) :=
            cmp_true_iff.mp hlr
          split
          next hic =>
            apply ih _ (2 * i + 2) (by omega)
            refine downInv_swap f i (2 * i + 2) hi hr (by omega) (by omega) hinv
              ?_ (cmp_true_iff.mp hic)
            intro j hj hpj hj0
            have : j = 2 * i + 1 ∨ j = 2 * i + 2 := by omega
            rcases this with h | h
            · rw [congrArg absKey (fapp_congr f h hj (by omega))]
              exact Nat.le_of_lt hlr_lt
            · rw [congrArg absKey (fapp_congr f h hj hr)]
          next hic =>
            have hic_le : absKey (f ⟨2 * i + 2, hr⟩) ≤ absKey (f ⟨i, hi⟩) :=
              cmp_false_iff.mp (Bool.not_eq_true _ ▸ Bool.eq_false_iff.mpr hic)
            refine isHeap_of_downInv_stop f i hi hinv ?_
            intro j hj hpj hj0
            have : j = 2 * i + 1 ∨ j = 2 * i + 2 := by omega
            rcases this with h | h
            · rw [congrArg absKey (fapp_congr f h hj (by omega))]
              exact Nat.le_trans (Nat.le_of_lt hlr_lt) hic_le
            · rw [congrArg absKey (fapp_congr f h hj hr)]
              exact hic_le
        next hlr =>
          -- the left child 2i+1 is at least as large
          have hlr_le : absKey (f ⟨2 * i + 2, hr⟩) ≤ absKey (f ⟨2 * i + 1, by omega⟩) :=
            cmp_false_iff.mp (Bool.not_eq_true _ ▸ Bool.eq_false_iff.mpr hlr)
          split
          next hic =>
            apply ih _ (2 * i + 1) (by omega)
            refine downInv_swap f i (2 * i + 1) hi (by omega) (by omega) (by omega) hinv
              ?_ (cmp_true_iff.mp hic)
            intro j hj hpj hj0
            have : j = 2 * i + 1 ∨ j = 2 * i + 2 := by omega
            rcases this with h | h
            · rw [congrArg absKey (fapp_congr f h hj (by omega))]
            · rw [congrArg absKey (fapp_congr f h hj hr)]
              exact hlr_le
          next hic =>
            have hic_le : absKey (f ⟨2 * i + 1, hl⟩) ≤ absKey (f ⟨i, hi⟩) :=
              cmp_false_iff.mp (Bool.not_eq_true _ ▸ Bool.eq_false_iff.mpr hic)
            refine isHeap_of_downInv_stop f i hi hinv ?_
            intro j hj hpj hj0
            have : j = 2 * i + 1 ∨ j = 2 * i + 2 := by omega
            rcases this with h | h
            · rw [congrArg absKey (fapp_congr f h hj hl)]
              exact hic_le
            · rw [congrArg absKey (fapp_congr f h hj hr)]
              exact Nat.le_trans hlr_le hic_le
      · rw [dif_neg hr]
        by_cases hl : 2 * i + 1 < n
        · rw [dif_pos hl]
          split
          next hic =>
            apply ih _ (2 * i + 1) (by omega)
            refine downInv_swap f i (2 * i + 1) hi hl (by omega) (by omega) hinv
              ?_ (cmp_true_iff.mp hic)
            intro j hj hpj hj0
            have : j = 2 * i + 1 := by omega
            rw [congrArg absKey (fapp_congr f this hj hl)]
          next hic =>
            have hic_le : absKey (f ⟨2 * i + 1, hl⟩) ≤ absKey (f ⟨i, hi⟩) :=
              cmp_false_iff.mp (Bool.not_eq_true _ ▸ Bool.eq_false_iff.mpr hic)
            refine isHeap_of_downInv_stop f i hi hinv ?_
            intro j hj hpj hj0
            have : j = 2 * i + 1 := by omega
            rw [congrArg absKey (fapp_congr f this hj hl)]
            exact hic_le
        · rw [dif_neg hl]
          refine isHeap_of_downInv_stop f i hi hinv ?_
          intro j hj hpj hj0
          omega
    · rw [dif_neg hi]
      intro j hj hj0 hq
      exact cmp_false_iff.mpr (hinv.1 j hj hj0 (by omega) hq)

theorem upInv_fpush {n : Nat} (f : Fin n → VertexDetPair) (x : VertexDetPair)
    (h : IsHeap f) : UpInv (fpush f x) n := by
  constructor
  · intro j hj hj0 hjn hq
    have hjb : j < n := by omega
    have hqb : (j - 1) / 2 < n := by omega
    have e1 : fpush f x ⟨j, hj⟩ = f ⟨j, hjb⟩ := by
      simp only [fpush]
      rw [dif_pos hjb]
    have e2 : fpush f x ⟨(j - 1) / 2, hq⟩ = f ⟨(j - 1) / 2, hqb⟩ := by
      simp only [fpush]
      rw [dif_pos hqb]
    rw [e1, e2]
    exact cmp_false_iff.mp (h j hjb hj0 hqb)
  · intro j hj hpj hj0 hn0 hq
    omega

theorem push_isHeap (q : VertexQueue) (x : VertexDetPair) (h : IsHeap q.elems) :
    IsHeap (q.push x).elems := by
  show IsHeap (siftUp q.size (fpush q.elems x) q.size)
  exact siftUp_isHeap q.size _ q.size (Nat.lt_succ_self _) (Nat.le_refl _)
    (upInv_fpush _ x h)

theorem downInv_poppedRoot {m : Nat} (f : Fin (m + 1) → VertexDetPair)
    (h : IsHeap f) :
    DownInv (fpop (fswap f ⟨0, Nat.succ_pos m⟩ ⟨m, Nat.lt_succ_self m⟩)) 0 := by
  constructor
  · intro j hj hj0 hjp hq
    have e1 : fpop (fswap f ⟨0, Nat.succ_pos m⟩ ⟨m, Nat.lt_succ_self m⟩) ⟨j, hj⟩
        = f ⟨j, Nat.lt_succ_of_lt hj⟩ := by
      show fswap f ⟨0, Nat.succ_pos m⟩ ⟨m, Nat.lt_succ_self m⟩ ⟨j, _⟩
          = f ⟨j, Nat.lt_succ_of_lt hj⟩
      exact fswap_other _ _ _ _
        (fun hcon => by have := congrArg Fin.val hcon; simp at this; omega)
        (fun hcon => by have := congrArg Fin.val hcon; simp at this; omega)
    have e2 : fpop (fswap f ⟨0, Nat.succ_pos m⟩ ⟨m, Nat.lt_succ_self m⟩) ⟨(j - 1) / 2, hq⟩
        = f ⟨(j - 1) / 2, Nat.lt_succ_of_lt hq⟩ := by
      show fswap f ⟨0, Nat.succ_pos m⟩ ⟨m, Nat.lt_succ_self m⟩ ⟨(j - 1) / 2, _⟩
          = f ⟨(j - 1) / 2, Nat.lt_succ_of_lt hq⟩
      exact fswap_other _ _ _ _
        (fun hcon => by have := congrArg Fin.val hcon; simp at this; omega)
        (fun hcon => by have := congrArg Fin.val hcon; simp at this; omega)
    rw [e1, e2]
    exact cmp_false_iff.mp (h j (Nat.lt_succ_of_lt hj) hj0 (Nat.lt_succ_of_lt hq))
  · intro j hj hpj hj0 h00 hq
    exact absurd h00 (Nat.lt_irrefl 0)

theorem pop_isHeap (q : VertexQueue) (h : IsHeap q.elems) : IsHeap q.pop.2.elems := by
  obtain ⟨sz, f⟩ := q
  cases sz with
  | zero =>
    intro j hj hj0 hq
    exact absurd hj (Nat.not_lt_zero _)
  | succ m =>
    show IsHeap (siftDown m (fpop (fswap f ⟨0, Nat.succ_pos m⟩ ⟨m, Nat.lt_succ_self m⟩)) 0)
    exact siftDown_isHeap m _ 0 (by omega) (downInv_poppedRoot f h)

theorem reachable_isHeap (q : VertexQueue) (h : q.Reachable) : IsHeap q.elems := by
  induction h with
  | empty => intro j hj hj0 hq; exact absurd hj (Nat.not_lt_zero _)
  | push q x _ ih => exact push_isHeap q x ih
  | pop q _ ih => exact pop_isHeap q ih

theorem isHeap_root_max {n : Nat} (f : Fin n → VertexDetPair) (h : IsHeap f) :
    ∀ (j : Nat) (hj : j < n) (h0 : 0 < n),
      absKey (f ⟨j, hj⟩) ≤ absKey (f ⟨0, h0⟩) := by
  intro j
  induction j using Nat.strong_induction_on with
  | _ j ih =>
    intro hj h0
    rcases Nat.eq_zero_or_pos j with hj0 | hj0
    · exact Nat.le_of_eq (congrArg absKey (fapp_congr f hj0 hj h0))
    · have hq : (j - 1) / 2 < n := by omega
      exact Nat.le_trans (cmp_false_iff.mp (h j hj hj0 hq))
        (ih ((j - 1) / 2) (by omega) hq h0)

/-! ### Geometry lemmas for `SplitPointError` -/

theorem Point.dot_sub_self_comm (a b : Point) :
    (a.sub b).dot (a.sub b) = (b.sub a).dot (b.sub a) := by
  simp only [Point.sub, Point.dot]
  ring

theorem Point.norm_sub_comm (a b : Point) : (a.sub b).norm = (b.sub a).norm :=
  congrArg Real.sqrt (Point.dot_sub_self_comm a b)

theorem Point.norm_le_norm {a b : Point} (h : a.dot a ≤ b.dot b) :
    a.norm ≤ b.norm :=
  Real.sqrt_le_sqrt h

theorem dot_sub_self_pos {p1 p2 : Point} (h : p1 ≠ p2) :
    0 < (p2.sub p1).dot (p2.sub p1) := by
  obtain ⟨x1, y1⟩ := p1
  obtain ⟨x2, y2⟩ := p2
  simp only [Point.sub, Point.dot]
  have hne2 : x1 ≠ x2 ∨ y1 ≠ y2 := by
    by_contra hcon
    push_neg at hcon
    exact h (by rw [hcon.1, hcon.2])
  rcases hne2 with hx | hy
  · have h1 : 0 < (x2 - x1) * (x2 - x1) :=
      mul_self_pos.mpr (sub_ne_zero.mpr (Ne.symm hx))
    nlinarith [mul_self_nonneg (y2 - y1)]
  · have h1 : 0 < (y2 - y1) * (y2 - y1) :=
      mul_self_pos.mpr (sub_ne_zero.mpr (Ne.symm hy))
    nlinarith [mul_self_nonneg (x2 - x1)]

theorem dot_sub_self_ne_zero {p1 p2 : Point} (h : p1 ≠ p2) :
    (p2.sub p1).dot (p2.sub p1) ≠ 0 :=
  ne_of_gt (dot_sub_self_pos h)

/-- C6: for distinct `pt1 ≠ pt2`, `SplitPointError::operator()(t)` returns
the distance from `edge.point(t)` to the line through `pt1` and `pt2` —
the norm of the difference between the point and its orthogonal projection
`q` onto that line (`q` is on the line, the difference is perpendicular to
the line, `q` is the unique such point, and it minimises the distance to
the line) — with sign `+1` when `edge.point(t)` is right of the directed
line `pt1 → pt2` and `-1` otherwise. -/
theorem C6_splitPointError_signed_distance (s : SplitPointError) (t : ℝ)
    (hne : s.p1 ≠ s.p2) :
    ∃ q : Point,
      (∃ u : ℝ, q = s.p1.add (Point.smul u (s.p2.sub s.p1))) ∧
      ((s.edgePoint t).sub q).dot (s.p2.sub s.p1) = 0 ∧
      (∀ r : Point, (∃ v : ℝ, r = s.p1.add (Point.smul v (s.p2.sub s.p1))) →
        ((s.edgePoint t).sub q).norm ≤ ((s.edgePoint t).sub r).norm) ∧
      (∀ q2 : Point, (∃ v : ℝ, q2 = s.p1.add (Point.smul v (s.p2.sub s.p1))) →
        ((s.edgePoint t).sub q2).dot (s.p2.sub s.p1) = 0 → q2 = q) ∧
      ((s.edgePoint t).is_right s.p1 s.p2 →
        s.eval t = ((s.edgePoint t).sub q).norm) ∧
      (¬ (s.edgePoint t).is_right s.p1 s.p2 →
        s.eval t = -((s.edgePoint t).sub q).norm) := by
  obtain ⟨ep, p1, p2⟩ := s
  dsimp only at hne ⊢
  have hD := dot_sub_self_pos hne
  have hD0 := dot_sub_self_ne_zero hne
  refine ⟨p1.add (Point.smul
      (((ep t).sub p1).dot (p2.sub p1) / (p2.sub p1).dot (p2.sub p1))
      (p2.sub p1)), ⟨_, rfl⟩, ?_, ?_, ?_, ?_, ?_⟩
  · -- the difference is perpendicular to the line direction
    obtain ⟨x1, y1⟩ := p1
    obtain ⟨x2, y2⟩ := p2
    rcases hept : ep t with ⟨px, py⟩
    simp only [Point.sub, Point.dot, Point.add, Point.smul, hept] at hD0 ⊢
    field_simp
    ring
  · -- any point of the line is at least as far from edge.point(t)
    rintro r ⟨v, rfl⟩
    apply Point.norm_le_norm
    obtain ⟨x1, y1⟩ := p1
    obtain ⟨x2, y2⟩ := p2
    rcases hept : ep t with ⟨px, py⟩
    simp only [Point.sub, Point.dot, Point.add, Point.smul, hept] at hD hD0 ⊢
    generalize hgu : ((px - x1) * (x2 - x1) + (py - y1) * (y2 - y1))
      / ((x2 - x1) * (x2 - x1) + (y2 - y1) * (y2 - y1)) = u
    have huD : u * ((x2 - x1) * (x2 - x1) + (y2 - y1) * (y2 - y1))
        = (px - x1) * (x2 - x1) + (py - y1) * (y2 - y1) := by
      rw [← hgu]
      exact div_mul_cancel₀ _ hD0
    have h1 : (u - v) * (u * ((x2 - x1) * (x2 - x1) + (y2 - y1) * (y2 - y1))
        - ((px - x1) * (x2 - x1) + (py - y1) * (y2 - y1))) = 0 := by
      rw [huD]; ring
    nlinarith [mul_nonneg hD.le (sq_nonneg (u - v)), h1]
  · -- uniqueness of the perpendicular foot on the line
    rintro q2 ⟨v, rfl⟩ hperp
    obtain ⟨x1, y1⟩ := p1
    obtain ⟨x2, y2⟩ := p2
    rcases hept : ep t with ⟨px, py⟩
    simp only [Point.sub, Point.dot, Point.add, Point.smul, hept] at hperp hD0 ⊢
    have hv : v = ((px - x1) * (x2 - x1) + (py - y1) * (y2 - y1))
        / ((x2 - x1) * (x2 - x1) + (y2 - y1) * (y2 - y1)) := by
      field_simp
      linear_combination -hperp
    subst hv
    rfl
  · -- sign +1 when edge.point(t) is right of the line
    intro hR
    simp only [SplitPointError.eval]
    rw [if_pos hR, one_mul]
    exact Point.norm_sub_comm _ _
  · -- sign -1 otherwise
    intro hR
    simp only [SplitPointError.eval]
    rw [if_neg hR, neg_one_mul]
    exact congrArg Neg.neg (Point.norm_sub_comm _ _)

/-- Witness for C6 at `pt1 = (0,0)`, `pt2 = (1,0)`, `edge.point(t) = (0,1)`. -/
theorem C6_splitPointError_signed_distance_witness :
    ∃ q : Point,
      (∃ u : ℝ, q = (Point.mk 0 0).add (Point.smul u
        ((Point.mk 1 0).sub (Point.mk 0 0)))) ∧
      ((Point.mk 0 1).sub q).dot ((Point.mk 1 0).sub (Point.mk 0 0)) = 0 ∧
      (∀ r : Point, (∃ v : ℝ, r = (Point.mk 0 0).add (Point.smul v
          ((Point.mk 1 0).sub (Point.mk 0 0)))) →
        ((Point.mk 0 1).sub q).norm ≤ ((Point.mk 0 1).sub r).norm) ∧
      (∀ q2 : Point, (∃ v : ℝ, q2 = (Point.mk 0 0).add (Point.smul v
          ((Point.mk 1 0).sub (Point.mk 0 0)))) →
        ((Point.mk 0 1).sub q2).dot ((Point.mk 1 0).sub (Point.mk 0 0)) = 0 →
        q2 = q) ∧
      ((Point.mk 0 1).is_right (Point.mk 0 0) (Point.mk 1 0) →
        (SplitPointError.mk (fun _ => Point.mk 0 1)
          (Point.mk 0 0) (Point.mk 1 0)).eval 0 = ((Point.mk 0 1).sub q).norm) ∧
      (¬ (Point.mk 0 1).is_right (Point.mk 0 0) (Point.mk 1 0) →
        (SplitPointError.mk (fun _ => Point.mk 0 1)
          (Point.mk 0 0) (Point.mk 1 0)).eval 0 = -(((Point.mk 0 1).sub q).norm)) :=
  C6_splitPointError_signed_distance
    (SplitPointError.mk (fun _ => Point.mk 0 1) (Point.mk 0 0) (Point.mk 1 0)) 0
    (by intro h; rw [Point.mk.injEq] at h; exact absurd h.1 (by norm_num))

/-- C8: `SplitPointError::operator()(t)` divides by `(p2-p1).dot(p2-p1)`
with no guard; the guarded embedding shows the division-by-zero branch is
unreachable exactly under the precondition `pt1 ≠ pt2`, and is reached for
every `t` when `pt1 = pt2`. -/
theorem C8_evalChecked_guard (s : SplitPointError) :
    (s.p1 ≠ s.p2 → ∀ t : ℝ, ∃ y : ℝ, s.evalChecked t = some y)
    ∧ (s.p1 = s.p2 → ∀ t : ℝ, s.evalChecked t = none) := by
  constructor
  · intro hne t
    refine ⟨s.eval t, ?_⟩
    unfold SplitPointError.evalChecked
    rw [if_neg (dot_sub_self_ne_zero hne)]
  · intro heq t
    unfold SplitPointError.evalChecked
    rw [if_pos]
    rw [heq]
    simp [Point.sub, Point.dot]

/-- Witness for C8: with distinct stored points the guarded evaluation
succeeds; with coincident stored points it reaches the error branch. -/
theorem C8_evalChecked_guard_witness :
    (∃ y : ℝ, (SplitPointError.mk (fun _ => Point.mk 0 1)
      (Point.mk 0 0) (Point.mk 1 0)).evalChecked 0 = some y)
    ∧ (SplitPointError.mk (fun _ => Point.mk 0 1)
      (Point.mk 2 3) (Point.mk 2 3)).evalChecked 0 = none :=
  ⟨(C8_evalChecked_guard _).1
      (by intro h; rw [Point.mk.injEq] at h; exact absurd h.1 (by norm_num)) 0,
   (C8_evalChecked_guard _).2 rfl 0⟩

/-- C9: `num_vertices()` returns `g.num_vertices() - num_point_sites()`,
i.e. `g.num_vertices() - (num_psites - 3)`: exactly one graph vertex per
user-inserted point site is excluded from the reported Voronoi-vertex
count, in every diagram state. -/
theorem C9_num_vertices_formula (s : VoronoiDiagramFields) :
    num_vertices s = s.g_num_vertices - num_point_sites s
    ∧ num_vertices s = s.g_num_vertices - (s.num_psites - 3) :=
  ⟨rfl, rfl⟩

/-- C10: on a default-constructed `VoronoiDiagram` the members
`far_radius`, `num_psites`, `num_lsites` are never initialized, so all
four accessors read indeterminate values; the two-argument constructor
initializes every member the accessors rely on. -/
theorem C10_default_ctor_uninitialized :
    (get_far_radius_raw VoronoiDiagram_default_ctor = none
      ∧ num_point_sites_raw VoronoiDiagram_default_ctor = none
      ∧ num_line_sites_raw VoronoiDiagram_default_ctor = none
      ∧ num_vertices_raw VoronoiDiagram_default_ctor = none)
    ∧ (∀ (far : ℚ) (n_bins : Nat),
        (get_far_radius_raw (VoronoiDiagram_ctor far n_bins)).isSome = true
        ∧ (num_point_sites_raw (VoronoiDiagram_ctor far n_bins)).isSome = true
        ∧ (num_line_sites_raw (VoronoiDiagram_ctor far n_bins)).isSome = true
        ∧ (num_vertices_raw (VoronoiDiagram_ctor far n_bins)).isSome = true) :=
  ⟨⟨rfl, rfl, rfl, rfl⟩, fun _ _ => ⟨rfl, rfl, rfl, rfl⟩⟩

/-! ### The insertion protocol: counters and error handling -/

theorem runOps_psites (ops : List SiteOp) : ∀ s : DiagramState,
    (runOps s ops).num_psites = s.num_psites + countPointOk s ops := by
  induction ops with
  | nil => intro s; simp [runOps, countPointOk]
  | cons op ops ih =>
    intro s
    rw [runOps, ih]
    cases op with
    | point p =>
      by_cases h : point_site_ok s p = true
      · simp [countPointOk, applyOp, insert_point_site, h]
        omega
      · simp [countPointOk, applyOp, insert_point_site, h]
    | line i j =>
      by_cases h : line_site_ok s i j = true
      · simp [countPointOk, applyOp, insert_line_site, h]
      · simp [countPointOk, applyOp, insert_line_site, h]

theorem runOps_lsites (ops : List SiteOp) : ∀ s : DiagramState,
    (runOps s ops).num_lsites = s.num_lsites + countLineOk s ops := by
  induction ops with
  | nil => intro s; simp [runOps, countLineOk]
  | cons op ops ih =>
    intro s
    rw [runOps, ih]
    cases op with
    | point p =>
      by_cases h : point_site_ok s p = true
      · simp [countLineOk, applyOp, insert_point_site, h]
      · simp [countLineOk, applyOp, insert_point_site, h]
    | line i j =>
      by_cases h : line_site_ok s i j = true
      · simp [countLineOk, applyOp, insert_line_site, h]
        omega
      · simp [countLineOk, applyOp, insert_line_site, h]

/-- C5: after any sequence of operations on a freshly constructed diagram,
`num_point_sites()` equals the number of successful `insert_point_site`
calls (the three initial generators excluded by the `- 3`), and
`num_line_sites()` equals the number of successful `insert_line_site`
calls. -/
theorem C5_counters_roundtrip (far : Int) (n_bins : Nat) (ops : List SiteOp) :
    (runOps (construct far n_bins) ops).num_point_sites
        = countPointOk (construct far n_bins) ops
    ∧ (runOps (construct far n_bins) ops).num_line_sites
        = countLineOk (construct far n_bins) ops := by
  constructor
  · rw [DiagramState.num_point_sites, runOps_psites]
    show (3 : Int) + countPointOk (construct far n_bins) ops - 3 = _
    omega
  · rw [DiagramState.num_line_sites, runOps_lsites]
    show (0 : Int) + countLineOk (construct far n_bins) ops = _
    omega

/-- C3: every input violating an insertion precondition — a point on or
outside the far circle, a point coincident with an existing point site, a
zero-length segment, a segment properly crossing an existing segment —
makes the insertion report failure and leave the diagram state exactly as
it was. -/
theorem C3_invalid_insertions_rejected (s : DiagramState) :
    (∀ p : IPoint,
      s.far_radius * s.far_radius ≤ p.x * p.x + p.y * p.y ∨ p ∈ s.points →
      insert_point_site s p = (none, s))
    ∧ (∀ i j : Nat, ∀ a b : IPoint, s.points[i]? = some a →
        s.points[j]? = some b → a = b → insert_line_site s i j = (false, s))
    ∧ (∀ i j : Nat, ∀ a b : IPoint, s.points[i]? = some a →
        s.points[j]? = some b →
        (∃ kl ∈ s.segs, ∃ c d : IPoint, s.points[kl.1]? = some c ∧
          s.points[kl.2]? = some d ∧ properCross a b c d = true) →
        insert_line_site s i j = (false, s)) := by
  refine ⟨?_, ?_, ?_⟩
  · intro p hp
    have hok : point_site_ok s p = false := by
      unfold point_site_ok
      rcases hp with h | h
      · rw [decide_eq_false (by omega), Bool.false_and]
      · rw [decide_eq_true h]
        simp
    simp [insert_point_site, hok]
  · intro i j a b hi hj hab
    have hok : line_site_ok s i j = false := by
      unfold line_site_ok
      rw [hi, hj]
      subst hab
      simp
    simp [insert_line_site, hok]
  · intro i j a b hi hj hex
    have hok : line_site_ok s i j = false := by
      unfold line_site_ok
      rw [hi, hj]
      obtain ⟨kl, hklmem, c, d, hc, hd, hcross⟩ := hex
      have hall : (s.segs.all (fun kl =>
          match s.points[kl.1]?, s.points[kl.2]? with
          | some c, some d => !properCross a b c d
          | _, _ => true)) = false := by
        refine List.all_eq_false.mpr ⟨kl, hklmem, ?_⟩
        rw [hc, hd]
        simp [hcross]
      simp [hall]
    simp [insert_line_site, hok]

/-- Witness for C3 on the concrete diagram `construct 10 50` holding the
point site `(1,0)`: inserting `(10,0)` (on the far circle) fails,
re-inserting `(1,0)` (coincident) fails, and the zero-length segment from
handle 0 to handle 0 fails — each leaving the state unchanged. -/
theorem C3_invalid_insertions_rejected_witness :
    insert_point_site (insert_point_site (construct 10 50) ⟨1, 0⟩).2 ⟨10, 0⟩
      = (none, (insert_point_site (construct 10 50) ⟨1, 0⟩).2)
    ∧ insert_point_site (insert_point_site (construct 10 50) ⟨1, 0⟩).2 ⟨1, 0⟩
      = (none, (insert_point_site (construct 10 50) ⟨1, 0⟩).2)
    ∧ insert_line_site (insert_point_site (construct 10 50) ⟨1, 0⟩).2 0 0
      = (false, (insert_point_site (construct 10 50) ⟨1, 0⟩).2) :=
  ⟨(C3_invalid_insertions_rejected _).1 ⟨10, 0⟩ (Or.inl (by decide)),
   (C3_invalid_insertions_rejected _).1 ⟨1, 0⟩ (Or.inr (by decide)),
   (C3_invalid_insertions_rejected _).2.1 0 0 ⟨1, 0⟩ ⟨1, 0⟩
     (by decide) (by decide) rfl⟩

/-! ### The process-global vertex counter -/

/-- C7 (counterexample): two runs in the same process that construct a
`VoronoiDiagram` with the same far radius and bin count and apply the same
insertion sequence do *not* end in equal states: vertex indices are drawn
from the process-global `VoronoiVertex` counter (the `static
reset_vertex_count()` hook, header line 99), so the second run's vertices
get different indices. -/
theorem C7_global_counter_counterexample :
    (grun 10 50 [⟨1, 0⟩] 0).1
      ≠ (grun 10 50 [⟨1, 0⟩] (grun 10 50 [⟨1, 0⟩] 0).2).1 := by
  decide

/-- C7 (amended): the diagram is a deterministic state machine once the
process-global vertex counter is included in the state: two runs with the
same far radius, bin count, insertion sequence *and* starting counter
value (e.g. fresh processes, or after `reset_vertex_count()`) are in equal
states after every prefix of the sequence. -/
theorem C7_deterministic_state_machine (far1 far2 : Int) (b1 b2 : Nat)
    (ps1 ps2 : List IPoint) (c1 c2 : Nat)
    (hf : far1 = far2) (hb : b1 = b2) (hp : ps1 = ps2) (hc : c1 = c2) :
    ∀ k : Nat, grun far1 b1 (ps1.take k) c1 = grun far2 b2 (ps2.take k) c2 := by
  subst hf
  subst hb
  subst hp
  subst hc
  intro k
  rfl

/-- Witness for C7 (amended) at a concrete run and prefix length. -/
theorem C7_deterministic_state_machine_witness :
    grun 10 50 ([⟨1, 0⟩].take 1) 0 = grun 10 50 ([⟨1, 0⟩].take 1) 0 :=
  C7_deterministic_state_machine 10 10 50 50 [⟨1, 0⟩] [⟨1, 0⟩] 0 0
    rfl rfl rfl rfl 1

/-! ### The flood fill: predicates C4/C5 and the per-face invariant -/

theorem mem_cyclePairs {c : List Nat} {ab : Nat × Nat} (h : ab ∈ cyclePairs c) :
    ab.1 ∈ c ∧ ab.2 ∈ c := by
  obtain ⟨a, b⟩ := ab
  cases c with
  | nil => simp [cyclePairs] at h
  | cons x xs =>
    unfold cyclePairs at h
    obtain ⟨ha, hb⟩ := List.of_mem_zip h
    refine ⟨ha, ?_⟩
    rcases List.mem_append.mp hb with h1 | h1
    · exact List.mem_cons_of_mem x h1
    · rw [List.mem_singleton.mp h1]
      exact List.mem_cons_self x xs

theorem inOutTransitions_congr {st1 st2 : StatusMap} {c : List Nat}
    (h : ∀ u ∈ c, isIN st1 u = isIN st2 u) :
    inOutTransitions st1 c = inOutTransitions st2 c := by
  unfold inOutTransitions
  apply List.countP_congr
  intro ab hab
  obtain ⟨ha, hb⟩ := mem_cyclePairs hab
  rw [h ab.1 ha, h ab.2 hb]

theorem fillInv_preserved_nonIN {faces : List (List Nat)} {st : StatusMap}
    {v : Nat} {x : VoronoiVertexStatus}
    (hv : st v ≠ .IN) (hx : x ≠ .IN) (hinv : FillInv faces st) :
    FillInv faces (updStatus st v x) := by
  intro f hf
  obtain ⟨h1, h2⟩ := hinv f hf
  have hcong : ∀ u ∈ f, isIN (updStatus st v x) u = isIN st u := by
    intro u hu
    by_cases huv : u = v
    · subst huv
      simp [isIN, updStatus, hv, hx]
    · simp [isIN, updStatus, huv]
  refine ⟨by rw [inOutTransitions_congr hcong]; exact h1, ?_⟩
  intro hne
  obtain ⟨u, hu, hune⟩ := h2 hne
  refine ⟨u, hu, ?_⟩
  by_cases huv : u = v
  · subst huv
    simpa [updStatus] using hx
  · simpa [updStatus, huv] using hune

theorem fillInv_accept {faces : List (List Nat)} {st : StatusMap} {v : Nat}
    (hc4 : predicate_c4 faces st v = true) (hc5 : predicate_c5 faces st v = true)
    (hinv : FillInv faces st) : FillInv faces (updStatus st v .IN) := by
  intro f hf
  by_cases hvf : v ∈ f
  · constructor
    · have := List.all_eq_true.mp hc4 f hf
      simp [hvf] at this
      exact this
    · intro _
      have := List.all_eq_true.mp hc5 f hf
      simp [hvf] at this
      obtain ⟨u, hu, huv, huo⟩ := this
      refine ⟨u, hu, ?_⟩
      rw [show updStatus st v .IN u = st u by simp [updStatus, huv], huo]
      decide
  · obtain ⟨h1, h2⟩ := hinv f hf
    have hcong : ∀ u ∈ f, isIN (updStatus st v .IN) u = isIN st u := by
      intro u hu
      have huv : u ≠ v := fun h => hvf (h ▸ hu)
      simp [isIN, updStatus, huv]
    refine ⟨by rw [inOutTransitions_congr hcong]; exact h1, ?_⟩
    intro hne
    obtain ⟨u, hu, hune⟩ := h2 hne
    have huv : u ≠ v := fun h => hvf (h ▸ hu)
    exact ⟨u, hu, by simpa [updStatus, huv] using hune⟩

/-- C1: in every `augment_vertex_set` iteration, the popped vertex `v` is
marked IN exactly when both predicate C4 (the IN-vertices of every face
incident to `v`, including `v`, stay connected on the boundary cycle) and
predicate C5 (every face incident to `v` keeps an OUT vertex) hold, and is
marked OUT otherwise; consequently, whenever the per-face invariant held
before the step — on every face the IN-set is one contiguous arc and no
boundary is wholly IN — it holds after it, accept or reject. -/
theorem C1_flood_fill_step (faces : List (List Nat)) (det : Nat → Int)
    (s : AugState) (v : Nat) (vd : Int) (rest : List (Nat × Int))
    (hpop : popMaxAbs s.vqueue = some ((v, vd), rest))
    (hv : s.status v = .UNDECIDED) (hinv : FillInv faces s.status) :
    ((augment_step faces det s).status = updStatus s.status v .IN
        ∨ (augment_step faces det s).status = updStatus s.status v .OUT)
    ∧ ((augment_step faces det s).status = updStatus s.status v .IN
        ↔ (predicate_c4 faces s.status v && predicate_c5 faces s.status v) = true)
    ∧ FillInv faces (augment_step faces det s).status := by
  have hne_upds : updStatus s.status v .OUT ≠ updStatus s.status v .IN := by
    intro h
    have := congrFun h v
    simp [updStatus] at this
  unfold augment_step
  rw [hpop]
  dsimp only
  rw [if_neg (by simp [hv])]
  by_cases hpred :
      (predicate_c4 faces s.status v && predicate_c5 faces s.status v) = true
  · rw [if_pos hpred]
    obtain ⟨hc4, hc5⟩ := Bool.and_eq_true_iff.mp hpred
    exact ⟨Or.inl rfl, ⟨fun _ => hpred, fun _ => rfl⟩,
      fillInv_accept hc4 hc5 hinv⟩
  · rw [if_neg hpred]
    refine ⟨Or.inr rfl, ⟨fun h => absurd h hne_upds, fun h => absurd h hpred⟩, ?_⟩
    show FillInv faces (updStatus s.status v .OUT)
    exact fillInv_preserved_nonIN (by simp [hv]) (by decide) hinv

/-- Witness for C1 on the square face `[0,1,2,3]` with seed vertex 0
already IN and vertex 1 popped next. -/
theorem C1_flood_fill_step_witness :
    ((augment_step [[0, 1, 2, 3]] (fun _ => 1)
        ⟨updStatus (fun _ => .UNDECIDED) 0 .IN, fun _ => false, [0], [], [(1, 1)]⟩).status
      = updStatus (updStatus (fun _ => .UNDECIDED) 0 .IN) 1 .IN
      ∨ (augment_step [[0, 1, 2, 3]] (fun _ => 1)
        ⟨updStatus (fun _ => .UNDECIDED) 0 .IN, fun _ => false, [0], [], [(1, 1)]⟩).status
      = updStatus (updStatus (fun _ => .UNDECIDED) 0 .IN) 1 .OUT)
    ∧ ((augment_step [[0, 1, 2, 3]] (fun _ => 1)
        ⟨updStatus (fun _ => .UNDECIDED) 0 .IN, fun _ => false, [0], [], [(1, 1)]⟩).status
      = updStatus (updStatus (fun _ => .UNDECIDED) 0 .IN) 1 .IN
      ↔ (predicate_c4 [[0, 1, 2, 3]] (updStatus (fun _ => .UNDECIDED) 0 .IN) 1
          && predicate_c5 [[0, 1, 2, 3]] (updStatus (fun _ => .UNDECIDED) 0 .IN) 1)
          = true)
    ∧ FillInv [[0, 1, 2, 3]]
        (augment_step [[0, 1, 2, 3]] (fun _ => 1)
          ⟨updStatus (fun _ => .UNDECIDED) 0 .IN, fun _ => false, [0], [], [(1, 1)]⟩).status :=
  C1_flood_fill_step [[0, 1, 2, 3]] (fun _ => 1)
    ⟨updStatus (fun _ => .UNDECIDED) 0 .IN, fun _ => false, [0], [], [(1, 1)]⟩
    1 1 [] (by decide) rfl (by decide)

/-! ### The status reset between insertions -/

theorem foldl_updStatus_eq (l : List Nat) : ∀ (st : StatusMap) (u : Nat),
    (l.foldl (fun m v => updStatus m v .UNDECIDED) st) u
      = if u ∈ l then .UNDECIDED else st u := by
  induction l with
  | nil => intro st u; simp
  | cons a l ih =>
    intro st u
    rw [List.foldl_cons, ih]
    by_cases h : u ∈ l
    · simp [h]
    · by_cases h2 : u = a
      · subst h2
        simp [h, updStatus]
      · simp [h, h2, updStatus]

theorem foldl_clearInc_eq (l : List Nat) : ∀ (fi : Nat → Bool) (i : Nat),
    (l.foldl (fun m j => fun k => if k = j then false else m k) fi) i
      = if i ∈ l then false else fi i := by
  induction l with
  | nil => intro fi i; simp
  | cons a l ih =>
    intro fi i
    rw [List.foldl_cons, ih]
    by_cases h : i ∈ l
    · simp [h]
    · by_cases h2 : i = a
      · subst h2
        simp [h]
      · simp [h, h2]

theorem trackInv_set_queue {s : AugState} (q : List (Nat × Int))
    (h : TrackInv s) : TrackInv { s with vqueue := q } :=
  ⟨h.1, h.2⟩

theorem trackInv_mark_vertex {s : AugState} (v : Nat) (x : VoronoiVertexStatus)
    (h : TrackInv s) : TrackInv (mark_vertex v x s) := by
  constructor
  · intro u hu
    by_cases huv : u = v
    · subst huv
      exact List.mem_cons_self _ _
    · have hs : s.status u ≠ .UNDECIDED := by
        simpa [mark_vertex, updStatus, huv] using hu
      exact List.mem_cons_of_mem _ (h.1 u hs)
  · intro i hi
    exact h.2 i (by simpa [mark_vertex] using hi)

theorem trackInv_mark_adjacent {s : AugState} (faces : List (List Nat)) (v : Nat)
    (h : TrackInv s) : TrackInv (mark_adjacent_faces faces v s) := by
  constructor
  · intro u hu
    exact h.1 u (by simpa [mark_adjacent_faces] using hu)
  · intro i hi
    simp only [mark_adjacent_faces] at hi ⊢
    rw [List.mem_append]
    by_cases hmem : i ∈ incidentFaceIdxs faces v
    · by_cases hold : i ∈ s.incident_faces
      · exact Or.inl hold
      · refine Or.inr (List.mem_filter.mpr ⟨hmem, ?_⟩)
        exact decide_eq_true hold
    · rw [if_neg hmem] at hi
      exact Or.inl (h.2 i hi)

theorem trackInv_augment_step {faces : List (List Nat)} {det : Nat → Int}
    {s : AugState} (h : TrackInv s) : TrackInv (augment_step faces det s) := by
  unfold augment_step
  cases hpop : popMaxAbs s.vqueue with
  | none => exact h
  | some vr =>
    obtain ⟨v, rest⟩ := vr
    dsimp only
    split
    · exact trackInv_set_queue rest h
    · split
      · exact trackInv_set_queue _
          (trackInv_mark_adjacent faces v.1
            (trackInv_mark_vertex v.1 .IN (trackInv_set_queue rest h)))
      · exact trackInv_mark_vertex v.1 .OUT (trackInv_set_queue rest h)

theorem trackInv_augment_vertex_set {faces : List (List Nat)} {det : Nat → Int} :
    ∀ (fuel : Nat) (s : AugState), TrackInv s →
      TrackInv (augment_vertex_set faces det fuel s) := by
  intro fuel
  induction fuel with
  | zero => intro s h; exact h
  | succ fuel ih =>
    intro s h
    rw [augment_vertex_set]
    split
    · exact h
    · exact ih _ (trackInv_augment_step h)

theorem cleanState_reset {s : AugState} (h : TrackInv s) :
    CleanState (reset_status s) := by
  refine ⟨?_, ?_, rfl, rfl, rfl⟩
  · intro v
    show (s.modified_vertices.foldl (fun m u => updStatus m u .UNDECIDED) s.status) v
        = .UNDECIDED
    rw [foldl_updStatus_eq]
    by_cases hv : v ∈ s.modified_vertices
    · simp [hv]
    · rw [if_neg hv]
      by_contra hne
      exact hv (h.1 v hne)
  · intro i
    show (s.incident_faces.foldl
        (fun m j => fun k => if k = j then false else m k) s.face_incident) i = false
    rw [foldl_clearInc_eq]
    by_cases hi : i ∈ s.incident_faces
    · simp [hi]
    · rw [if_neg hi]
      by_contra hne
      exact hi (h.2 i (by revert hne; cases s.face_incident i <;> simp))

theorem trackInv_of_clean {s : AugState} (h : CleanState s) : TrackInv s := by
  constructor
  · intro v hv
    exact absurd (h.1 v) hv
  · intro i hi
    rw [h.2.1 i] at hi
    cases hi

/-- C4: starting from the between-insertions state (every vertex
UNDECIDED, every face NONINCIDENT, scratch caches empty), every completed
insertion — seed marking, flood fill, `reset_status` — ends again in that
state; hence the property holds between any two insertions of any
insertion sequence. -/
theorem C4_status_reset_between_insertions (s : AugState) (hs : CleanState s)
    (ps : List InsertionParams) : CleanState (run_insertions s ps) := by
  induction ps generalizing s with
  | nil => exact hs
  | cons p ps ih =>
    rw [run_insertions]
    apply ih
    unfold insertion_status_cycle
    exact cleanState_reset
      (trackInv_augment_vertex_set p.fuel _
        (trackInv_set_queue _
          (trackInv_mark_adjacent p.faces p.seed
            (trackInv_mark_vertex p.seed .IN (trackInv_of_clean hs)))))

/-- Witness for C4: a concrete insertion on the square face `[0,1,2,3]`
run from the clean state returns to the clean state. -/
theorem C4_status_reset_between_insertions_witness :
    CleanState (run_insertions
      ⟨fun _ => .UNDECIDED, fun _ => false, [], [], []⟩
      [⟨[[0, 1, 2, 3]], fun _ => 1, 0, 5⟩]) :=
  C4_status_reset_between_insertions
    ⟨fun _ => .UNDECIDED, fun _ => false, [], [], []⟩
    ⟨fun _ => rfl, fun _ => rfl, rfl, rfl, rfl⟩
    [⟨[[0, 1, 2, 3]], fun _ => 1, 0, 5⟩]

end OpenVoronoi
